import Mathlib

/-!
Verification of the weekly-summary pipeline (scripts/weekly-summary.ts).

The script is embedded shallowly:

* JS strings are Lean `String`s; the JS code-unit operations (`trim`,
  `slice`, `split`, `startsWith`, `join`) are written out over `String.data`
  so that they compute by kernel reduction.
* The external collaborators (git queries, the chat completion endpoint, the
  Lark webhook) are parameters: git query results are input lists/functions,
  the summarization service is a function `String → Except String String`
  (prompt to response text or failure), delivery is a function
  `String → Except String Unit`.
* The async main IIFE is sequential (one chat call at a time), so it is a
  pure function of those parameters; the list of prompts it sends is
  returned alongside each result so that "no call is made" is expressible.
* JS `Date` local-time arithmetic is embedded as a calendar day number
  (days since the Unix epoch, a Thursday) plus milliseconds of the day;
  `setDate`/`setHours` act uniformly on that representation.
-/

/-! ## Generic helpers (JS array / string semantics) -/

/-- First-occurrence deduplication with an explicit `seen` accumulator:
the observable content of a JS `Set`/`Map` built by insertion. -/
def dedupFirstAux (seen : List String) : List String → List String
  | [] => []
  | x :: xs =>
    if x ∈ seen then dedupFirstAux seen xs
    else x :: dedupFirstAux (x :: seen) xs

/-- Keep the first occurrence of every element (JS `Set` insertion order). -/
def dedupFirst (l : List String) : List String :=
  dedupFirstAux [] l

/-- JS `Array.prototype.join(sep)`. -/
def joinWith (sep : String) : List String → String
  | [] => ""
  | [s] => s
  | s :: s2 :: rest => s ++ sep ++ joinWith sep (s2 :: rest)

/-- JS `arr.slice(-limit)` for a non-negative `limit`: the last `limit`
elements, the whole array when `limit = 0` (since `slice(-0) = slice(0)`). -/
def jsSliceLast (l : List String) (limit : Nat) : List String :=
  if limit = 0 then l else l.drop (l.length - limit)

/-- JS `s.trim()`: strip leading and trailing whitespace. -/
def jsTrim (s : String) : String :=
  String.mk (((s.data.dropWhile Char.isWhitespace).reverse.dropWhile
    Char.isWhitespace).reverse)

/-- JS `s.startsWith(pre)`. -/
def jsStartsWith (s pre : String) : Bool :=
  pre.data.isPrefixOf s.data

/-- JS `s.slice(start, start + len)` (clamping semantics of `slice`). -/
def jsSlice (s : String) (start len : Nat) : String :=
  String.mk ((s.data.drop start).take len)

/-! ## Window resolver (lines 63-78)

A local instant is a calendar day number (days since 1970-01-01, which was a
Thursday, so JS `getDay()` of day `d` is `(d + 4) % 7` with Sunday = 0) plus
the milliseconds elapsed in that day.  `setHours` replaces the
milliseconds-of-day, `setDate` shifts the day number; days are treated
uniformly (civil-calendar granularity, as the spec's window contract is
stated at that granularity). -/

structure LocalInstant where
  day : Int
  msOfDay : Nat
deriving DecidableEq, Repr

/-- JS `Date.prototype.getDay()` of a local day number: 0 = Sunday. -/
def jsGetDay (d : Int) : Int :=
  (d + 4) % 7

/-- `startOfWeek`: `setHours(0,0,0,0)` then `setDate(getDate() - (getDay() + 6) % 7)`. -/
def startOfWeek (now : LocalInstant) : LocalInstant :=
  let day := jsGetDay now.day
  let offsetToMonday := (day + 6) % 7
  ⟨now.day - offsetToMonday, 0⟩

/-- `sunday`: `startOfWeek` shifted by `setDate(+6)` and `setHours(23,59,59,999)`. -/
def sundayOfWeek (now : LocalInstant) : LocalInstant :=
  ⟨(startOfWeek now).day + 6, (23 * 3600 + 59 * 60 + 59) * 1000 + 999⟩

/-- Total milliseconds of a local instant, for comparing instants. -/
def LocalInstant.toMs (t : LocalInstant) : Int :=
  t.day * 86400000 + t.msOfDay

/-! ## Activity collector (lines 98-157) -/

structure CommitMeta where
  sha : String
  title : String
  author : String
  url : String
  branches : List String
deriving DecidableEq, Repr

/-- `branchToCommits`: one capped, oldest-first sha list per remote branch.
A JS `Map` keyed by branch keeps first-insertion order and a single entry
per key, hence the `dedupFirst`. -/
def branchToCommits (remoteBranches : List String) (scanOf : String → List String)
    (limit : Nat) : List (String × List String) :=
  (dedupFirst remoteBranches).map fun rb => (rb, jsSliceLast (scanOf rb) limit)

/-- `shaToBranches.get(sha)` before sorting: the branches on whose scan the
sha appeared, in scan order, deduplicated (JS `Set` semantics). -/
def shaBranchesRaw (bts : List (String × List String)) (sha : String) : List String :=
  dedupFirst ((bts.filter fun p => p.2.contains sha).map Prod.fst)

/-- `shaToBranches.has(sha)`. -/
def hasAttribution (bts : List (String × List String)) (sha : String) : Bool :=
  bts.any fun p => p.2.contains sha

/-- The filter loop of `commitShas` with its `seen` set. -/
def commitShasGo (hasB : String → Bool) (seen : List String) : List String → List String
  | [] => []
  | sha :: rest =>
    if sha ∈ seen then commitShasGo hasB seen rest
    else if hasB sha then sha :: commitShasGo hasB (sha :: seen) rest
    else commitShasGo hasB seen rest

/-- `commitShas`: walk `allShasOrdered`, keep a sha the first time it is
seen and only when it has an attribution entry. -/
def commitShas (bts : List (String × List String)) (allShasOrdered : List String) :
    List String :=
  commitShasGo (hasAttribution bts) [] allShasOrdered

def serverUrl : String := "https://github.com"

/-- JS `Array.from(set).sort()`: lexicographic sort of the branch set. -/
def sortStrings (l : List String) : List String :=
  l.insertionSort (· ≤ ·)

/-- `commitMetas`: resolve title, author, link and the sorted branch set. -/
def commitMetas (bts : List (String × List String)) (allShasOrdered : List String)
    (titleOf authorOf : String → String) (repo : String) : List CommitMeta :=
  (commitShas bts allShasOrdered).map fun sha =>
    { sha := sha
      title := titleOf sha
      author := authorOf sha
      url := if repo.isEmpty then serverUrl ++ "/commit/" ++ sha
             else serverUrl ++ "/" ++ repo ++ "/commit/" ++ sha
      branches := sortStrings (shaBranchesRaw bts sha) }

/-! ## Diff chunker (lines 191-218) -/

/-- A line is a split point of `/^diff --git.*$/m` iff it starts with
`diff --git`. -/
def isDiffHeader (line : List Char) : Bool :=
  ("diff --git".data).isPrefixOf line

/-- Split a char list into its `\n`-separated lines (JS line model of the
multiline regex). -/
def splitLinesChars : List Char → List (List Char)
  | [] => [[]]
  | c :: rest =>
    if c = '\n' then [] :: splitLinesChars rest
    else
      match splitLinesChars rest with
      | [] => [[c]]
      | g :: gs => (c :: g) :: gs

/-- Group the lines of a patch into the pieces between `diff --git` header
lines (the header lines themselves are the separators and are dropped,
exactly as `String.prototype.split` drops its matches). -/
def splitAtHeaders : List (List Char) → List (List Char)
  | [] => [[]]
  | l :: rest =>
    let gs := splitAtHeaders rest
    if isDiffHeader l then [] :: gs
    else
      match gs with
      | [] => [l]
      | g :: gs' => (l ++ '\n' :: g) :: gs'

/-- `splitPatchByFile`: split on the file-header regex, trim each piece,
drop empty pieces. -/
def splitPatchByFile (patch : String) : List String :=
  if patch.isEmpty then []
  else
    ((splitAtHeaders (splitLinesChars patch.data)).map fun g =>
        jsTrim (String.mk g)).filter fun s => !s.isEmpty

/-- The slicing `for (let i = 0; i < p.length; i += limit)` loop, with fuel
(the loop terminates for `limit > 0`, which always holds on the script's
configuration; fuel `p.length` suffices). -/
def sliceGo (limit : Nat) : Nat → List Char → List (List Char)
  | _, [] => []
  | 0, _ => []
  | fuel + 1, l => l.take limit :: sliceGo limit fuel (l.drop limit)

/-- All `p.slice(i, i + limit)` pieces of an oversized unit, in order. -/
def strSlices (p : String) (limit : Nat) : List String :=
  (sliceGo limit p.data.length p.data).map String.mk

/-- The body of `chunkBySize`, with the running buffer `buf` explicit. -/
def chunkGo (limit : Nat) (buf : String) : List String → List String
  | [] => if buf.isEmpty then [] else [buf]
  | p :: rest =>
    let candidate := if buf.isEmpty then p else buf ++ "\n\n" ++ p
    if limit < candidate.length then
      (if buf.isEmpty then [] else [buf]) ++
        (if limit < p.length then strSlices p limit ++ chunkGo limit "" rest
         else chunkGo limit p rest)
    else chunkGo limit candidate rest

/-- `chunkBySize`: greedily pack units into chunks of at most `limit`
characters, slicing a unit that alone exceeds the limit. -/
def chunkBySize (parts : List String) (limit : Nat) : List String :=
  chunkGo limit "" parts

/-! ## Chunk normalization used to state completeness (claim C5)

`splitOnSep` undoes the `"\n\n"` packing separator; `sliceExpand` is the
unit sequence actually emitted for one logical unit (the unit itself, or
its fixed-size slices when oversized). -/

/-- Prepend a char to the first group of a split result. -/
def consHead (c : Char) : List (List Char) → List (List Char)
  | [] => [[c]]
  | g :: gs => (c :: g) :: gs

/-- Split a char list at every (leftmost, non-overlapping) `"\n\n"`. -/
def splitSepChars : List Char → List (List Char)
  | [] => [[]]
  | [c] => [[c]]
  | c :: d :: rest =>
    if c = '\n' ∧ d = '\n' then [] :: splitSepChars rest
    else consHead c (splitSepChars (d :: rest))

/-- Split a chunk at the `"\n\n"` packing separator. -/
def splitOnSep (s : String) : List String :=
  (splitSepChars s.data).map String.mk

/-- Does the char list contain the separator `"\n\n"`? -/
def hasSep : List Char → Bool
  | [] => false
  | [_] => false
  | c :: d :: rest => (c == '\n' && d == '\n') || hasSep (d :: rest)

/-- A well-formed logical unit as produced from a real git patch: nonempty,
trimmed (hence not bordered by a newline) and without blank lines, so the
join separator `"\n\n"` can be removed unambiguously. -/
def goodUnit (p : String) : Prop :=
  p.data ≠ [] ∧ hasSep p.data = false ∧
    p.data.head? ≠ some '\n' ∧ p.data.getLast? ≠ some '\n'

instance (p : String) : Decidable (goodUnit p) := by
  unfold goodUnit; infer_instance

/-- What one logical unit contributes to the emitted chunk sequence. -/
def sliceExpand (limit : Nat) (p : String) : List String :=
  if limit < p.length then strSlices p limit else [p]

/-! ## Hierarchical summarizer (lines 227-463)

`ChatFun` is the summarization collaborator: prompt in, text out or a
failure reason.  The script's `chat` resolves a successful call to the
(content or `""`) of the response, and rejects otherwise. -/

abbrev ChatFun := String → Except String String

structure Item where
  meta : CommitMeta
  summary : String
deriving Repr

/-- `commitChunkPrompt` (lines 278-306), single-lined with `\n`. -/
def commitChunkPrompt (meta : CommitMeta) (partIdx total : Nat) (patch : String) :
    String :=
  "你是一名高效的个人知识管理助手。以下是“个人笔记”内容片段（第 " ++ toString partIdx ++ "/" ++
    toString total ++
    " 段），请用中文输出结构化摘要，面向读书笔记、待办任务、闪念想法、生活/健身/教育等场景：\n\n记录信息：\n- 记录ID: " ++
    meta.sha ++ "\n- 标题: " ++ meta.title ++ "\n- 作者: " ++ meta.author ++
    "\n- 关联分支/主题: " ++ joinWith ", " meta.branches ++ "\n- 链接: " ++ meta.url ++
    "\n\n请按以下结构输出（尽量简洁、要点化）：\n1) 内容类型识别：如 读书笔记 / 待办 / 闪念 / 生活 / 健身 / 教育 / 其他\n" ++
    "2) 核心要点：3-6 条，概括事实、观点或步骤\n3) 可执行事项：列出需要行动的任务（含优先级与预估时间）\n" ++
    "4) 后续计划与提醒：下一步、时间节点、依赖或阻塞\n5) 反思与启发：个人理解、方法论、可迁移的框架\n" ++
    "6) 标签与归档建议：话题标签（#tag），以及应归档到的目录/项目\n\n注意：仅基于当前片段，不要臆测；不要贴长原文；" ++
    "若为重复、格式化或噪声内容，请明确指出并给出处理建议（合并/删除/延期/归档）。\n\n=== 内容片段 BEGIN ===\n" ++
    patch ++ "\n=== 内容片段 END ==="

/-- The `【片段i】` labelling loop of `commitMergePrompt`. -/
def labelParts (idx : Nat) : List String → List String
  | [] => []
  | p :: rest => ("【片段" ++ toString (idx + 1) ++ "】\n" ++ p) :: labelParts (idx + 1) rest

/-- `commitMergePrompt` (lines 308-332), single-lined with `\n`. -/
def commitMergePrompt (meta : CommitMeta) (parts : List String) : String :=
  "以下是同一笔“个人笔记”在多片段中的小结，请合并为**单条记录**的最终摘要（中文），面向读书笔记、待办、闪念、生活/健身/教育等场景，输出结构：\n" ++
    "- 内容类型汇总：从各片段判断主类型与可能的次类型\n- 合并的核心要点：3-8 条，去重与合并同类项\n" ++
    "- 可执行行动清单：任务+优先级（高/中/低）+预估时间（分钟/小时/天）\n- 时间线与提醒：截止/开始时间、周期性、依赖与阻塞\n" ++
    "- 关键引用/摘录：用极简要点形式保留核心引用（不贴长段原文）\n- 反思与启发：个人方法论、可迁移框架或原则\n" ++
    "- 标签与归档建议：#标签，推荐目录/项目\n- 完整性标注：若片段缺失或被截断，标注“可能不完整”\n\n记录元信息：\n- 记录ID: " ++
    meta.sha ++ "\n- 标题: " ++ meta.title ++ "\n- 作者: " ++ meta.author ++
    "\n- 关联分支/主题: " ++ joinWith ", " meta.branches ++ "\n- 链接: " ++ meta.url ++
    "\n\n请避免重复、不要臆测，保持简洁清晰，突出可执行价值。\n\n=== 片段小结集合 BEGIN ===\n" ++
    joinWith "\n\n" (labelParts 0 parts) ++ "\n=== 片段小结集合 END ==="

/-- JS `sha.slice(0, 7)`. -/
def shortSha (sha : String) : String :=
  jsSlice sha 0 7

/-- One `[sha7] title — author — branches\nsummary` line of the weekly body. -/
def weeklyItemLine (it : Item) : String :=
  "[" ++ shortSha it.meta.sha ++ "] " ++ it.meta.title ++ " — " ++ it.meta.author ++
    " — " ++ joinWith ", " it.meta.branches ++ "\n" ++ it.summary

/-- `weeklyMergePrompt` (lines 334-366), single-lined with `\n`. -/
def weeklyMergePrompt (weekLabel : String) (items : List Item) (repo : String) : String :=
  "请将以下“本周个人笔记条目摘要”整合为**本周个人知识与行动周报（中文）**，面向读书笔记、待办、闪念、生活/健身/教育等场景，输出结构如下：\n" ++
    "# " ++ weekLabel ++ " 个人知识与行动周报（" ++ repo ++ ")\n1. 本周概览（3-8 条，主题与收获）\n" ++
    "2. 关键洞见与知识要点（按主题/标签分组，合并同类项）\n3. 可执行行动清单（下周优先）：任务 + 优先级 + 预估时间\n" ++
    "4. 时间线与提醒（截止/开始/周期性），标注依赖与阻塞\n5. 读书/学习进展（书名/章节/方法论/可迁移框架）\n" ++
    "6. 生活与健康（健身/饮食/作息）数据化小结与下步计划\n7. 闪念收纳与归档建议（去重、合并、落盘到项目/目录）\n" ++
    "8. 清理建议（重复/噪声/仅格式化），以及归档或删除决策\n\n注意：\n- 避免臆测与冗长引用，突出要点与行动价值\n" ++
    "- 标注“可能不完整”当来源片段缺失或被截断\n- 给出标签建议（#标签）与归档位置（目录/项目）\n\n=== 本周条目摘要 BEGIN ===\n" ++
    joinWith "\n\n---\n\n" (items.map weeklyItemLine) ++ "\n=== 本周条目摘要 END ==="

/-- Leaf fallback when a successful chunk call returns empty text. -/
def emptyLeafFallback (partIdx : Nat) : String :=
  "（片段" ++ toString partIdx ++ "摘要为空）"

/-- Leaf fallback when a chunk call fails; `e` is JS `String(e)`. -/
def failedLeafFallback (partIdx : Nat) (e : String) : String :=
  "（片段" ++ toString partIdx ++ "调用失败：" ++ e ++ "）"

/-- One iteration of the per-chunk loop: call, then `sum || fallback`,
with a failure caught into the failure fallback. -/
def leafSummary (chatF : ChatFun) (meta : CommitMeta) (partIdx total : Nat)
    (chunk : String) : String :=
  match chatF (commitChunkPrompt meta partIdx total chunk) with
  | .ok s => if s.isEmpty then emptyLeafFallback partIdx else s
  | .error e => failedLeafFallback partIdx e

/-- The `for (let i = 0; i < chunks.length; i++)` accumulation of
`partSummaries`, from index `idx`. -/
def leafLoop (chatF : ChatFun) (meta : CommitMeta) (total : Nat) (idx : Nat) :
    List String → List String
  | [] => []
  | c :: rest => leafSummary chatF meta (idx + 1) total c :: leafLoop chatF meta total (idx + 1) rest

/-- The `partSummaries` list for a commit's chunk sequence. -/
def partSummaries (chatF : ChatFun) (meta : CommitMeta) (chunks : List String) :
    List String :=
  leafLoop chatF meta chunks.length 0 chunks

/-- The prompts issued by the per-chunk loop, in order. -/
def leafCalls (meta : CommitMeta) (total : Nat) (idx : Nat) : List String → List String
  | [] => []
  | c :: rest => commitChunkPrompt meta (idx + 1) total c :: leafCalls meta total (idx + 1) rest

/-- The placeholder recorded when a commit has no content after filtering. -/
def placeholderNoContent : String :=
  "（无有效内容或改动已被过滤，例如 lockfile/构建产物/二进制，或空提交）"

/-- One iteration of the main per-commit loop: returns the pushed
`perCommitFinal` item together with every prompt sent to the summarization
service for this commit. -/
def summarizeCommit (chatF : ChatFun) (limit : Nat) (meta : CommitMeta)
    (fullPatch : String) : Item × List String :=
  if (jsTrim fullPatch).isEmpty then (⟨meta, placeholderNoContent⟩, [])
  else
    let fileParts := splitPatchByFile fullPatch
    let chunks := chunkBySize fileParts limit
    let sums := partSummaries chatF meta chunks
    let mergeCall := commitMergePrompt meta sums
    let merged := match chatF mergeCall with
      | .ok s => s
      | .error _ => joinWith "\n\n" sums
    (⟨meta, merged⟩, leafCalls meta chunks.length 0 chunks ++ [mergeCall])

/-- The degraded window report built when the weekly merge call fails. -/
def weeklyFallback (perCommitFinal : List Item) : String :=
  "（本周汇总失败，以下为逐条原始小结拼接）\n\n" ++
    joinWith "\n\n---\n\n" (perCommitFinal.map fun it =>
      "[" ++ shortSha it.meta.sha ++ "] " ++ it.meta.title ++ " — " ++
        joinWith ", " it.meta.branches ++ "\n" ++ it.summary)

/-- The whole summarization stage of the main IIFE: per-commit loop, then
the weekly merge with its fallback.  Returns the final window report text. -/
def runPipeline (chatF : ChatFun) (limit : Nat) (metas : List CommitMeta)
    (patchOf : String → String) (weekLabel repo : String) : String :=
  let perCommitFinal := metas.map fun meta =>
    (summarizeCommit chatF limit meta (patchOf meta.sha)).1
  match chatF (weeklyMergePrompt weekLabel perCommitFinal
      (if repo.isEmpty then "repository" else repo)) with
  | .ok s => s
  | .error _ => weeklyFallback perCommitFinal

/-! ## Report dispatcher and process outcome (lines 369-463) -/

/-- `postToLark`: when no webhook is configured the text is printed locally
and the call succeeds; otherwise the delivery collaborator decides. -/
def postToLark (webhookConfigured : Bool) (send : String → Except String Unit)
    (text : String) : Except String Unit :=
  if webhookConfigured then send text else .ok ()

/-- The tail of the main IIFE: compute the window report, then dispatch it.
A dispatch rejection is not caught anywhere before the top-level `.catch`. -/
def mainResult (chatF : ChatFun) (limit : Nat) (metas : List CommitMeta)
    (patchOf : String → String) (weekLabel repo : String) (webhookConfigured : Bool)
    (send : String → Except String Unit) : Except String Unit :=
  postToLark webhookConfigured send (runPipeline chatF limit metas patchOf weekLabel repo)

/-- The top-level `.catch(err => { console.error(err); process.exit(1) })`. -/
def processExitCode : Except String Unit → Nat
  | .ok _ => 0
  | .error _ => 1

/-! ## Lemmas: deduplication and the collected sha sequence -/

lemma mem_dedupFirstAux (a : String) (l : List String) :
    ∀ seen, a ∈ dedupFirstAux seen l ↔ a ∈ l ∧ a ∉ seen := by
  induction l with
  | nil => simp [dedupFirstAux]
  | cons x xs ih =>
    intro seen
    by_cases hax : a = x
    · subst hax
      by_cases hx : a ∈ seen
      · simp [dedupFirstAux, hx, ih]
      · simp [dedupFirstAux, hx, ih]
    · by_cases hx : x ∈ seen
      · simp [dedupFirstAux, hx, ih, hax]
      · simp [dedupFirstAux, hx, ih, hax]

lemma nodup_dedupFirstAux (l : List String) :
    ∀ seen, (dedupFirstAux seen l).Nodup := by
  induction l with
  | nil => intro seen; simp [dedupFirstAux]
  | cons x xs ih =>
    intro seen
    by_cases hx : x ∈ seen
    · simpa [dedupFirstAux, hx] using ih seen
    · simp only [dedupFirstAux, if_neg hx, List.nodup_cons]
      refine ⟨fun hc => ?_, ih _⟩
      exact ((mem_dedupFirstAux x xs _).mp hc).2 (List.mem_cons_self x seen)

lemma sublist_dedupFirstAux (l : List String) :
    ∀ seen, List.Sublist (dedupFirstAux seen l) l := by
  induction l with
  | nil => intro seen; simp [dedupFirstAux]
  | cons x xs ih =>
    intro seen
    by_cases hx : x ∈ seen
    · simpa [dedupFirstAux, hx] using (ih seen).cons x
    · simpa [dedupFirstAux, hx] using (ih (x :: seen)).cons₂ x

lemma commitShasGo_eq (hasB : String → Bool) (l : List String) :
    ∀ seen, commitShasGo hasB seen l = dedupFirstAux seen (l.filter hasB) := by
  induction l with
  | nil => intro seen; rfl
  | cons x xs ih =>
    intro seen
    by_cases hb : hasB x
    · by_cases hx : x ∈ seen <;>
        simp [commitShasGo, dedupFirstAux, hx, hb, ih]
    · by_cases hx : x ∈ seen <;>
        simp [commitShasGo, dedupFirstAux, hx, hb, ih]

/-- C3: the collected commit sequence is exactly the oldest-first union,
filtered to first-seen attribution-map members, and its order is the
union's global order (it is a sublist of the union sequence). -/
theorem commitShas_eq_dedup_filter (bts : List (String × List String))
    (allShasOrdered : List String) :
    commitShas bts allShasOrdered =
        dedupFirst (allShasOrdered.filter (hasAttribution bts)) ∧
      List.Sublist (commitShas bts allShasOrdered) allShasOrdered := by
  constructor
  · exact commitShasGo_eq _ _ []
  · rw [commitShas, commitShasGo_eq _ _ []]
    exact (sublist_dedupFirstAux _ []).trans (List.filter_sublist _)

/-! ## Claim C6: the resolved window -/

/-- C6: for every instant the resolved window starts on a Monday at
00:00:00, ends the following Sunday at 23:59:59(.999) of the same week,
contains the instant, and the Sunday case walks back a full six days
(Sunday is treated as the last day of the week). -/
theorem window_monday_to_sunday (now : LocalInstant) (h : now.msOfDay < 86400000) :
    jsGetDay (startOfWeek now).day = 1 ∧ (startOfWeek now).msOfDay = 0 ∧
      jsGetDay (sundayOfWeek now).day = 0 ∧ (sundayOfWeek now).msOfDay = 86399999 ∧
      (startOfWeek now).toMs ≤ now.toMs ∧ now.toMs ≤ (sundayOfWeek now).toMs ∧
      (jsGetDay now.day = 0 → (startOfWeek now).day = now.day - 6) := by
  simp only [startOfWeek, sundayOfWeek, jsGetDay, LocalInstant.toMs]
  exact ⟨by omega, trivial, by omega, trivial, by omega, by omega, by omega⟩

/-- Witness for C6 at the concrete instant (day 0, ms 5), a Thursday. -/
theorem window_monday_to_sunday_witness :
    jsGetDay (startOfWeek ⟨0, 5⟩).day = 1 ∧ (startOfWeek ⟨0, 5⟩).msOfDay = 0 ∧
      jsGetDay (sundayOfWeek ⟨0, 5⟩).day = 0 ∧ (sundayOfWeek ⟨0, 5⟩).msOfDay = 86399999 ∧
      (startOfWeek ⟨0, 5⟩).toMs ≤ (⟨0, 5⟩ : LocalInstant).toMs ∧
      (⟨0, 5⟩ : LocalInstant).toMs ≤ (sundayOfWeek ⟨0, 5⟩).toMs ∧
      (jsGetDay (⟨0, 5⟩ : LocalInstant).day = 0 → (startOfWeek ⟨0, 5⟩).day = 0 - 6) :=
  window_monday_to_sunday ⟨0, 5⟩ (by decide)

/-! ## Claim C8: content-absent commits -/

/-- C8: a commit whose change content is empty after the exclusion filter
is recorded with the explicit placeholder summary and causes no call to the
summarization service, for every behaviour of that service. -/
theorem emptyPatch_placeholder_no_call (chatF : ChatFun) (limit : Nat)
    (meta : CommitMeta) (patch : String) (h : (jsTrim patch).isEmpty) :
    summarizeCommit chatF limit meta patch = (⟨meta, placeholderNoContent⟩, []) := by
  unfold summarizeCommit
  simp [h]

/-- Witness for C8: a lockfile-only commit (patch filtered to nothing). -/
theorem emptyPatch_placeholder_no_call_witness :
    summarizeCommit (fun _ => .ok "reply") 80000
        ⟨"deadbee", "chore", "alice", "https://github.com/commit/deadbee", ["origin/main"]⟩ "" =
      (⟨⟨"deadbee", "chore", "alice", "https://github.com/commit/deadbee", ["origin/main"]⟩,
        placeholderNoContent⟩, []) :=
  emptyPatch_placeholder_no_call (fun _ => .ok "reply") 80000 _ "" (by decide)

/-! ## Claim C9: dispatch failures are fatal -/

/-- C9: when the webhook is configured and delivery of the final report
fails, the failure propagates to the top level uncaught-error handler and
the process exits non-zero; no fallback replaces a failed dispatch. -/
theorem dispatchFailure_fails_run (chatF : ChatFun) (limit : Nat)
    (metas : List CommitMeta) (patchOf : String → String) (weekLabel repo : String)
    (send : String → Except String Unit) (e : String)
    (hsend : send (runPipeline chatF limit metas patchOf weekLabel repo) = .error e) :
    mainResult chatF limit metas patchOf weekLabel repo true send = .error e ∧
      processExitCode (mainResult chatF limit metas patchOf weekLabel repo true send) = 1 := by
  unfold mainResult postToLark
  simp [hsend, processExitCode]

/-- Witness for C9: a delivery collaborator that always fails with a
network error makes the run end with exit code 1. -/
theorem dispatchFailure_fails_run_witness :
    mainResult (fun _ => .ok "report") 80000 [] (fun _ => "") "2026-01-05 ~ 2026-01-11" ""
        true (fun _ => .error "socket hang up") = .error "socket hang up" ∧
      processExitCode (mainResult (fun _ => .ok "report") 80000 [] (fun _ => "")
        "2026-01-05 ~ 2026-01-11" "" true (fun _ => .error "socket hang up")) = 1 :=
  dispatchFailure_fails_run (fun _ => .ok "report") 80000 [] (fun _ => "")
    "2026-01-05 ~ 2026-01-11" "" (fun _ => .error "socket hang up") "socket hang up" rfl

/-! ## Lemmas: the chunker's size bound -/

lemma String.length_eq_data_length (s : String) : s.length = s.data.length := rfl

lemma ne_empty_of_length_pos {s : String} (h : 0 < s.length) : ¬s.isEmpty := by
  intro he
  rw [String.isEmpty_iff] at he
  subst he
  simp at h

lemma mem_sliceGo_length_le (limit : Nat) :
    ∀ fuel l c, c ∈ sliceGo limit fuel l → c.length ≤ limit := by
  intro fuel
  induction fuel with
  | zero => intro l c hc; cases l <;> simp [sliceGo] at hc
  | succ n ih =>
    intro l c hc
    cases l with
    | nil => simp [sliceGo] at hc
    | cons x xs =>
      simp only [sliceGo, List.mem_cons] at hc
      rcases hc with rfl | hc
      · simp [List.length_take]
      · exact ih _ _ hc

lemma mem_strSlices_length_le (p : String) (limit : Nat) :
    ∀ c ∈ strSlices p limit, c.length ≤ limit := by
  intro c hc
  rw [strSlices, List.mem_map] at hc
  obtain ⟨piece, hp, rfl⟩ := hc
  simpa [String.length_eq_data_length] using mem_sliceGo_length_le limit _ _ piece hp

lemma chunkGo_length_le (limit : Nat) (parts : List String) :
    ∀ buf, buf.length ≤ limit → ∀ c ∈ chunkGo limit buf parts, c.length ≤ limit := by
  induction parts with
  | nil =>
    intro buf hbuf c hc
    by_cases hbe : buf.isEmpty <;> simp [chunkGo, hbe] at hc
    subst hc; exact hbuf
  | cons p rest ih =>
    intro buf hbuf c hc
    simp only [chunkGo] at hc
    by_cases hover : limit < (if buf.isEmpty then p else buf ++ "\n\n" ++ p).length
    · rw [if_pos hover] at hc
      rcases List.mem_append.mp hc with hl | hr
      · by_cases hbe : buf.isEmpty <;> simp [hbe] at hl
        subst hl; exact hbuf
      · by_cases hp : limit < p.length
        · rw [if_pos hp] at hr
          rcases List.mem_append.mp hr with hs | hrec
          · exact mem_strSlices_length_le p limit c hs
          · exact ih "" (by simp) c hrec
        · rw [if_neg hp] at hr
          exact ih p (by omega) c hr
    · rw [if_neg hover] at hc
      exact ih _ (by omega) c hc

lemma length_sep : ("\n\n" : String).length = 2 := rfl

lemma chunkGo_full_buf_mem (limit : Nat) (buf : String) (hbuf : buf.length = limit)
    (hpos : 0 < limit) : ∀ rest, buf ∈ chunkGo limit buf rest := by
  have hbe : buf.isEmpty = false :=
    Bool.eq_false_iff.mpr (ne_empty_of_length_pos (by omega))
  intro rest
  cases rest with
  | nil => simp [chunkGo, hbe]
  | cons q r =>
    have hover2 : limit < buf.length + "\n\n".length + q.length := by
      rw [length_sep]; omega
    simp [chunkGo, hbe, hover2]

lemma chunkGo_keeps_exact (limit : Nat) (hpos : 0 < limit) (p : String)
    (hp : p.length = limit) (parts : List String) :
    ∀ buf, buf.length ≤ limit → p ∈ parts → p ∈ chunkGo limit buf parts := by
  induction parts with
  | nil => intro buf _ hmem; simp at hmem
  | cons q rest ih =>
    intro buf hbuf hmem
    rcases List.mem_cons.mp hmem with rfl | hmem'
    · -- the unit itself is being processed: it becomes (or replaces) the
      -- buffer and is flushed whole by `chunkGo_full_buf_mem`
      by_cases hbe : buf.isEmpty
      · have hnover : ¬limit < p.length := by omega
        simp only [chunkGo, hbe, if_true, if_neg hnover]
        exact chunkGo_full_buf_mem limit p hp hpos rest
      · have hbeF : buf.isEmpty = false := Bool.eq_false_iff.mpr hbe
        have hover2 : limit < buf.length + "\n\n".length + p.length := by
          rw [length_sep]; omega
        have hnp : ¬limit < p.length := by omega
        simp [chunkGo, hbeF, hover2, hnp]
        exact Or.inr (chunkGo_full_buf_mem limit p hp hpos rest)
    · -- the unit sits further down the list
      by_cases hbe : buf.isEmpty
      · by_cases hov : limit < q.length
        · simp [chunkGo, hbe, hov]
          exact Or.inr (ih "" (by simp) hmem')
        · simp [chunkGo, hbe, hov]
          exact ih q (by omega) hmem'
      · have hbeF : buf.isEmpty = false := Bool.eq_false_iff.mpr hbe
        by_cases hov : limit < buf.length + "\n\n".length + q.length
        · by_cases hq : limit < q.length
          · simp [chunkGo, hbeF, hov, hq]
            exact Or.inr (Or.inr (ih "" (by simp) hmem'))
          · simp [chunkGo, hbeF, hov, hq]
            exact Or.inr (ih q (by omega) hmem')
        · simp [chunkGo, hbeF, hov]
          refine ih _ ?_ hmem'
          rw [String.length_append, String.length_append, length_sep]
          rw [length_sep] at hov
          omega

/-- C4: every chunk emitted by `chunkBySize` is at most `limit` characters
long — also the chunks obtained by slicing an oversized unit — and a
nonempty unit whose size is exactly `limit` is emitted whole, never split. -/
theorem chunkBySize_size_bound (parts : List String) (limit : Nat) :
    (∀ c ∈ chunkBySize parts limit, c.length ≤ limit) ∧
      (∀ p ∈ parts, p.length = limit → 0 < p.length → p ∈ chunkBySize parts limit) := by
  constructor
  · exact chunkGo_length_le limit parts "" (by simp)
  · intro p hmem hp hpos
    exact chunkGo_keeps_exact limit (by omega) p hp parts "" (by simp) hmem

/-- Witness for C4 on a concrete unit list: with limit 2 the exactly-full
unit `"ab"` is kept whole and every chunk obeys the bound. -/
theorem chunkBySize_size_bound_witness :
    "ab" ∈ chunkBySize ["ab", "cdef"] 2 ∧
      (∀ c ∈ chunkBySize ["ab", "cdef"] 2, c.length ≤ 2) :=
  ⟨(chunkBySize_size_bound ["ab", "cdef"] 2).2 "ab" (by decide) (by decide) (by decide),
    (chunkBySize_size_bound ["ab", "cdef"] 2).1⟩

/-! ## Lemmas: slicing an oversized unit -/

lemma sliceGo_fuel (limit : Nat) (hl : 0 < limit) :
    ∀ fuel l, l.length ≤ fuel → sliceGo limit fuel l = sliceGo limit l.length l := by
  intro fuel
  induction fuel using Nat.strong_induction_on with
  | _ fuel ih =>
    intro l hfuel
    cases fuel with
    | zero =>
      have : l = [] := List.eq_nil_of_length_eq_zero (by omega)
      subst this; rfl
    | succ n =>
      cases l with
      | nil => rfl
      | cons x xs =>
        have hxs : xs.length ≤ n := by
          simp only [List.length_cons] at hfuel; omega
        have hd : ((x :: xs).drop limit).length ≤ xs.length := by
          simp only [List.length_drop, List.length_cons]; omega
        show sliceGo limit (n + 1) (x :: xs) = sliceGo limit (xs.length + 1) (x :: xs)
        simp only [sliceGo]
        congr 1
        rw [ih n (by omega) _ (by omega), ih xs.length (by omega) _ hd]

lemma sliceGo_flatten (limit : Nat) (hl : 0 < limit) :
    ∀ fuel l, l.length ≤ fuel → (sliceGo limit fuel l).flatten = l := by
  intro fuel
  induction fuel with
  | zero =>
    intro l hfuel
    have : l = [] := List.eq_nil_of_length_eq_zero (by omega)
    subst this; rfl
  | succ n ih =>
    intro l hfuel
    cases l with
    | nil => rfl
    | cons x xs =>
      have hd : ((x :: xs).drop limit).length ≤ n := by
        simp only [List.length_drop, List.length_cons]
        simp only [List.length_cons] at hfuel
        omega
      simp only [sliceGo, List.flatten_cons]
      rw [ih ((x :: xs).drop limit) hd]
      exact List.take_append_drop limit (x :: xs)

lemma mk_data_eq (s : String) : String.mk s.data = s := by
  cases s; rfl

/-- Concatenation of a string list, used to state reassembly facts. -/
def strConcat (l : List String) : String :=
  String.mk ((l.map String.data).flatten)

lemma strConcat_strSlices (p : String) (limit : Nat) (hl : 0 < limit) :
    strConcat (strSlices p limit) = p := by
  rw [strConcat, strSlices, List.map_map]
  have hmap : (String.data ∘ String.mk) = id := rfl
  rw [hmap, List.map_id, sliceGo_flatten limit hl _ _ le_rfl, mk_data_eq]

lemma sliceGo_unfold (limit : Nat) (hl : 0 < limit) (l : List Char) (hne : l ≠ []) :
    sliceGo limit l.length l =
      l.take limit :: sliceGo limit (l.drop limit).length (l.drop limit) := by
  cases l with
  | nil => exact absurd rfl hne
  | cons x xs =>
    show sliceGo limit (xs.length + 1) (x :: xs) = _
    simp only [sliceGo]
    congr 1
    exact sliceGo_fuel limit hl xs.length _ (by simp [List.length_drop]; omega)

lemma mk_length (x : List Char) : (String.mk x).length = x.length := rfl

lemma chunkBySize_singleton_oversized (p : String) (limit : Nat)
    (hover : limit < p.length) :
    chunkBySize [p] limit = strSlices p limit := by
  simp [chunkBySize, chunkGo, hover, String.isEmpty_iff]

/-! ## Claim C7: a single unit of 3.5 times the limit -/

/-- C7: a commit whose content is one logical unit of length `7 * m`
chunked with limit `2 * m` yields exactly four chunks — the first three
exactly at the limit and the fourth the remainder — whose concatenation is
the unit; and a pending nonempty buffer is flushed first, the unit's slices
being emitted right after it. -/
theorem chunkBySize_three_point_five (m : Nat) (hm : 0 < m) (p : String)
    (hlen : p.length = 7 * m) :
    (chunkBySize [p] (2 * m)).map String.length = [2 * m, 2 * m, 2 * m, m] ∧
      strConcat (chunkBySize [p] (2 * m)) = p ∧
      ∀ buf : String, buf.isEmpty = false →
        chunkGo (2 * m) buf [p] = buf :: chunkBySize [p] (2 * m) := by
  have h2m : 0 < 2 * m := by omega
  have hover : 2 * m < p.length := by omega
  have hd : p.data.length = 7 * m := hlen
  have h1 : (p.data.drop (2 * m)).length = 5 * m := by
    rw [List.length_drop, hd]; omega
  have h2 : ((p.data.drop (2 * m)).drop (2 * m)).length = 3 * m := by
    rw [List.length_drop, h1]; omega
  have h3 : (((p.data.drop (2 * m)).drop (2 * m)).drop (2 * m)).length = m := by
    rw [List.length_drop, h2]; omega
  have h4 : ((((p.data.drop (2 * m)).drop (2 * m)).drop (2 * m)).drop (2 * m)).length = 0 := by
    rw [List.length_drop, h3]; omega
  have e4 : (((p.data.drop (2 * m)).drop (2 * m)).drop (2 * m)).drop (2 * m) = [] :=
    List.eq_nil_of_length_eq_zero h4
  have hne0 : p.data ≠ [] := by
    intro h; rw [h] at hd; simp at hd; omega
  have hne1 : p.data.drop (2 * m) ≠ [] := by
    intro h; rw [h] at h1; simp at h1; omega
  have hne2 : (p.data.drop (2 * m)).drop (2 * m) ≠ [] := by
    intro h; rw [h] at h2; simp at h2; omega
  have hne3 : ((p.data.drop (2 * m)).drop (2 * m)).drop (2 * m) ≠ [] := by
    intro h; rw [h] at h3; simp at h3; omega
  have hslices : strSlices p (2 * m) =
      [String.mk (p.data.take (2 * m)),
       String.mk ((p.data.drop (2 * m)).take (2 * m)),
       String.mk (((p.data.drop (2 * m)).drop (2 * m)).take (2 * m)),
       String.mk ((((p.data.drop (2 * m)).drop (2 * m)).drop (2 * m)).take (2 * m))] := by
    rw [strSlices, sliceGo_unfold _ h2m _ hne0, sliceGo_unfold _ h2m _ hne1,
      sliceGo_unfold _ h2m _ hne2, sliceGo_unfold _ h2m _ hne3, e4]
    rfl
  have hchunks := chunkBySize_singleton_oversized p (2 * m) hover
  refine ⟨?_, ?_, ?_⟩
  · rw [hchunks, hslices]
    simp only [List.map_cons, List.map_nil, mk_length, List.length_take, hd, h1, h2, h3,
      List.cons.injEq, and_true]
    omega
  · rw [hchunks]
    exact strConcat_strSlices p (2 * m) h2m
  · intro buf hbe
    have hover2 : 2 * m < buf.length + "\n\n".length + p.length := by
      rw [length_sep]; omega
    rw [hchunks]
    simp [chunkGo, hbe, hover2, hover, hslices, String.isEmpty_iff]

/-- Witness for C7 at `m = 1`: `"abcdefg"` with limit 2 gives chunk sizes
`[2, 2, 2, 1]`, reassembles to the unit, and a pending buffer `"zz"` is
flushed ahead of the slices. -/
theorem chunkBySize_three_point_five_witness :
    (chunkBySize ["abcdefg"] 2).map String.length = [2, 2, 2, 1] ∧
      strConcat (chunkBySize ["abcdefg"] 2) = "abcdefg" ∧
      chunkGo 2 "zz" ["abcdefg"] = "zz" :: chunkBySize ["abcdefg"] 2 :=
  ⟨(chunkBySize_three_point_five 1 (by decide) "abcdefg" (by decide)).1,
    (chunkBySize_three_point_five 1 (by decide) "abcdefg" (by decide)).2.1,
    (chunkBySize_three_point_five 1 (by decide) "abcdefg" (by decide)).2.2 "zz" (by decide)⟩

/-! ## Lemmas: fallback strings are nonempty -/

lemma append_ne_empty_left (s t : String) (h : s.length ≠ 0) : s ++ t ≠ "" := by
  intro he
  have hlen : (s ++ t).length = 0 := by rw [he]; rfl
  rw [String.length_append] at hlen
  omega

lemma emptyLeafFallback_ne (partIdx : Nat) : emptyLeafFallback partIdx ≠ "" := by
  have h3 : ("（片段" : String).length = 3 := rfl
  rw [emptyLeafFallback]
  apply append_ne_empty_left
  rw [String.length_append]
  omega

lemma failedLeafFallback_ne (partIdx : Nat) (e : String) :
    failedLeafFallback partIdx e ≠ "" := by
  have h3 : ("（片段" : String).length = 3 := rfl
  rw [failedLeafFallback]
  apply append_ne_empty_left
  rw [String.length_append, String.length_append, String.length_append]
  omega

lemma leafLoop_nonempty (chatF : ChatFun) (meta : CommitMeta) (total : Nat) :
    ∀ chunks idx, ∀ s ∈ leafLoop chatF meta total idx chunks, s ≠ "" := by
  intro chunks
  induction chunks with
  | nil => intro idx s hs; simp [leafLoop] at hs
  | cons c rest ih =>
    intro idx s hs
    rcases List.mem_cons.mp hs with rfl | hs'
    · rw [leafSummary]
      cases hcall : chatF (commitChunkPrompt meta (idx + 1) total c) with
      | ok t =>
        by_cases ht : t.isEmpty
        · simp only [ht, if_true]
          exact emptyLeafFallback_ne _
        · simp only [ht, if_false, Bool.false_eq_true]
          exact fun hc => ht (by rw [hc]; rfl)
      | error e => exact failedLeafFallback_ne _ e
    · exact ih (idx + 1) s hs'

/-! ## Claim C10: empty successful responses become positional placeholders -/

/-- C10: a chunk call that succeeds with empty text records the positional
`（片段i摘要为空）` placeholder as that leaf's summary, and consequently every
leaf summary handed to the commit-level merge is a nonempty string. -/
theorem leafSummaries_nonempty (chatF : ChatFun) (meta : CommitMeta)
    (chunks : List String) :
    (∀ partIdx total chunk,
        chatF (commitChunkPrompt meta partIdx total chunk) = .ok "" →
          leafSummary chatF meta partIdx total chunk = emptyLeafFallback partIdx) ∧
      ∀ s ∈ partSummaries chatF meta chunks, s ≠ "" := by
  constructor
  · intro partIdx total chunk hcall
    rw [leafSummary, hcall]
    rfl
  · exact leafLoop_nonempty chatF meta chunks.length chunks 0

/-- Witness for C10: with a service answering `ok ""`, the single leaf
summary is the positional placeholder, and it is nonempty. -/
theorem leafSummaries_nonempty_witness :
    leafSummary (fun _ => .ok "") ⟨"a1b2c3", "t", "au", "u", ["origin/dev"]⟩ 1 1 "c" =
        emptyLeafFallback 1 ∧
      emptyLeafFallback 1 ≠ "" :=
  ⟨(leafSummaries_nonempty (fun _ => .ok "") ⟨"a1b2c3", "t", "au", "u", ["origin/dev"]⟩
      ["c"]).1 1 1 "c" rfl,
    (leafSummaries_nonempty (fun _ => .ok "") ⟨"a1b2c3", "t", "au", "u", ["origin/dev"]⟩
      ["c"]).2 (emptyLeafFallback 1)
      (by rw [show partSummaries (fun _ => .ok "")
            ⟨"a1b2c3", "t", "au", "u", ["origin/dev"]⟩ ["c"] = [emptyLeafFallback 1] from rfl]
          exact List.mem_singleton_self _)⟩

/-! ## Claim C1: total summarization failure still yields a report -/

/-- C1: with a summarization collaborator that fails on every request, the
pipeline still terminates with a nonempty window report (the labeled
degraded concatenation), every commit-level merge falls back to its leaf
summaries joined in order, and every leaf summary is the positional
failure fallback — no summarization failure aborts the run. -/
theorem alwaysFailing_pipeline_produces_report (chatF : ChatFun) (limit : Nat)
    (metas : List CommitMeta) (patchOf : String → String) (weekLabel repo : String)
    (hfail : ∀ prompt, ∃ e, chatF prompt = .error e) :
    (runPipeline chatF limit metas patchOf weekLabel repo).length ≠ 0 ∧
      List.IsPrefix ("（本周汇总失败，以下为逐条原始小结拼接）\n\n").data
        (runPipeline chatF limit metas patchOf weekLabel repo).data ∧
      (∀ meta ∈ metas, (jsTrim (patchOf meta.sha)).isEmpty = false →
        (summarizeCommit chatF limit meta (patchOf meta.sha)).1.summary =
          joinWith "\n\n" (partSummaries chatF meta
            (chunkBySize (splitPatchByFile (patchOf meta.sha)) limit))) ∧
      (∀ meta partIdx total chunk, ∃ e,
        leafSummary chatF meta partIdx total chunk = failedLeafFallback partIdx e) := by
  have hlabel : ("（本周汇总失败，以下为逐条原始小结拼接）\n\n" : String).length = 22 := rfl
  have hrun : runPipeline chatF limit metas patchOf weekLabel repo =
      weeklyFallback (metas.map fun meta =>
        (summarizeCommit chatF limit meta (patchOf meta.sha)).1) := by
    rw [runPipeline]
    obtain ⟨e, he⟩ := hfail (weeklyMergePrompt weekLabel
      (metas.map fun meta => (summarizeCommit chatF limit meta (patchOf meta.sha)).1)
      (if repo.isEmpty then "repository" else repo))
    rw [he]
  refine ⟨?_, ?_, ?_, ?_⟩
  · rw [hrun, weeklyFallback, String.length_append, hlabel]
    omega
  · rw [hrun, weeklyFallback, String.data_append]
    exact List.prefix_append _ _
  · intro meta _ hne
    rw [summarizeCommit]
    simp only [hne, Bool.false_eq_true, if_false]
    obtain ⟨e, he⟩ := hfail (commitMergePrompt meta (partSummaries chatF meta
      (chunkBySize (splitPatchByFile (patchOf meta.sha)) limit)))
    simp only [he]
  · intro meta partIdx total chunk
    obtain ⟨e, he⟩ := hfail (commitChunkPrompt meta partIdx total chunk)
    exact ⟨e, by rw [leafSummary, he]⟩

/-- Witness for C1: an always-failing service on one commit with content
`"x"` still yields the degraded report and the expected fallbacks. -/
theorem alwaysFailing_pipeline_produces_report_witness :
    (runPipeline (fun _ => .error "boom") 80000
        [⟨"a1b2c3", "t", "au", "u", ["origin/dev"]⟩] (fun _ => "x") "wl" "").length ≠ 0 ∧
      List.IsPrefix ("（本周汇总失败，以下为逐条原始小结拼接）\n\n").data
        (runPipeline (fun _ => .error "boom") 80000
          [⟨"a1b2c3", "t", "au", "u", ["origin/dev"]⟩] (fun _ => "x") "wl" "").data ∧
      (summarizeCommit (fun _ => .error "boom") 80000
          ⟨"a1b2c3", "t", "au", "u", ["origin/dev"]⟩ "x").1.summary =
        joinWith "\n\n" (partSummaries (fun _ => .error "boom")
          ⟨"a1b2c3", "t", "au", "u", ["origin/dev"]⟩
          (chunkBySize (splitPatchByFile "x") 80000)) ∧
      ∃ e, leafSummary (fun _ => .error "boom")
          ⟨"a1b2c3", "t", "au", "u", ["origin/dev"]⟩ 1 1 "c" = failedLeafFallback 1 e := by
  have h := alwaysFailing_pipeline_produces_report (fun _ => .error "boom") 80000
    [⟨"a1b2c3", "t", "au", "u", ["origin/dev"]⟩] (fun _ => "x") "wl" ""
    (fun _ => ⟨"boom", rfl⟩)
  exact ⟨h.1, h.2.1,
    h.2.2.1 ⟨"a1b2c3", "t", "au", "u", ["origin/dev"]⟩ (List.mem_singleton_self _) (by decide),
    h.2.2.2 ⟨"a1b2c3", "t", "au", "u", ["origin/dev"]⟩ 1 1 "c"⟩

/-! ## Lemmas: branch attribution -/

lemma contains_iff_mem (l : List String) (a : String) : l.contains a = true ↔ a ∈ l := by
  simp [List.contains]

lemma mem_shaBranchesRaw (bts : List (String × List String)) (sha b : String) :
    b ∈ shaBranchesRaw bts sha ↔ ∃ p ∈ bts, p.1 = b ∧ sha ∈ p.2 := by
  rw [shaBranchesRaw, dedupFirst, mem_dedupFirstAux]
  simp only [List.mem_map, List.mem_filter, List.not_mem_nil, not_false_iff, and_true]
  constructor
  · rintro ⟨p, ⟨hp, hc⟩, rfl⟩
    exact ⟨p, hp, rfl, (contains_iff_mem _ _).mp hc⟩
  · rintro ⟨p, hp, rfl, hm⟩
    exact ⟨p, ⟨hp, (contains_iff_mem _ _).mpr hm⟩, rfl⟩

lemma mem_sortStrings (l : List String) (b : String) : b ∈ sortStrings l ↔ b ∈ l :=
  (List.perm_insertionSort _ l).mem_iff

lemma nodup_sortStrings (l : List String) (h : l.Nodup) : (sortStrings l).Nodup :=
  ((List.perm_insertionSort _ l).nodup_iff).mpr h

lemma sorted_sortStrings (l : List String) : (sortStrings l).Sorted (· ≤ ·) :=
  List.sorted_insertionSort _ l

/-! ## Claim C2: a commit on two branches is collected once with both -/

/-- C2: when a commit id appears in the (capped) per-branch scans of exactly
the two tracked branches `A` and `B`, the collected sequence contains it
exactly once, and that commit's `branches` field is the sorted,
duplicate-free set `{A, B}`. -/
theorem commit_on_two_branches (remoteBranches : List String)
    (scanOf : String → List String) (limit : Nat) (allShasOrdered : List String)
    (titleOf authorOf : String → String) (repo : String) (sha A B : String)
    (hAB : A ≠ B)
    (hA : A ∈ dedupFirst remoteBranches)
    (hB : B ∈ dedupFirst remoteBranches)
    (hshaA : sha ∈ jsSliceLast (scanOf A) limit)
    (hshaB : sha ∈ jsSliceLast (scanOf B) limit)
    (honly : ∀ C ∈ dedupFirst remoteBranches,
      sha ∈ jsSliceLast (scanOf C) limit → C = A ∨ C = B)
    (hall : sha ∈ allShasOrdered) :
    (commitShas (branchToCommits remoteBranches scanOf limit) allShasOrdered).count sha
        = 1 ∧
      ∀ m ∈ commitMetas (branchToCommits remoteBranches scanOf limit) allShasOrdered
          titleOf authorOf repo, m.sha = sha →
        (∀ b, b ∈ m.branches ↔ (b = A ∨ b = B)) ∧
          m.branches.Sorted (· ≤ ·) ∧ m.branches.Nodup := by
  set bts := branchToCommits remoteBranches scanOf limit with hbts
  have hattr : hasAttribution bts sha = true := by
    rw [hasAttribution, List.any_eq_true]
    refine ⟨(A, jsSliceLast (scanOf A) limit), ?_, (contains_iff_mem _ _).mpr hshaA⟩
    rw [hbts, branchToCommits]
    exact List.mem_map.mpr ⟨A, hA, rfl⟩
  constructor
  · rw [commitShas, commitShasGo_eq]
    have hmem : sha ∈ dedupFirstAux [] (allShasOrdered.filter (hasAttribution bts)) := by
      rw [mem_dedupFirstAux]
      exact ⟨List.mem_filter.mpr ⟨hall, hattr⟩, List.not_mem_nil sha⟩
    exact List.count_eq_one_of_mem (nodup_dedupFirstAux _ []) hmem
  · intro m hm hsha
    rw [commitMetas, List.mem_map] at hm
    obtain ⟨sha', _, rfl⟩ := hm
    simp only at hsha
    subst hsha
    refine ⟨?_, sorted_sortStrings _, nodup_sortStrings _ (nodup_dedupFirstAux _ [])⟩
    intro b
    rw [mem_sortStrings, mem_shaBranchesRaw]
    constructor
    · rintro ⟨p, hp, rfl, hmem⟩
      rw [hbts, branchToCommits, List.mem_map] at hp
      obtain ⟨rb, hrb, rfl⟩ := hp
      exact honly rb hrb hmem
    · rintro (rfl | rfl)
      · exact ⟨(b, jsSliceLast (scanOf b) limit),
          by rw [hbts, branchToCommits]; exact List.mem_map.mpr ⟨b, hA, rfl⟩, rfl, hshaA⟩
      · exact ⟨(b, jsSliceLast (scanOf b) limit),
          by rw [hbts, branchToCommits]; exact List.mem_map.mpr ⟨b, hB, rfl⟩, rfl, hshaB⟩

/-- Witness for C2: a sha on the scans of exactly `origin/a` and `origin/b`
is collected exactly once. -/
theorem commit_on_two_branches_witness :
    (commitShas (branchToCommits ["origin/b", "origin/a"] (fun _ => ["s1"]) 200)
      ["s1"]).count "s1" = 1 :=
  (commit_on_two_branches ["origin/b", "origin/a"] (fun _ => ["s1"]) 200 ["s1"]
    (fun _ => "T") (fun _ => "Au") "org/repo" "s1" "origin/b" "origin/a"
    (by decide) (by decide) (by decide) (by decide) (by decide) (by decide)
    (by decide)).1

/-! ## Lemmas: splitting chunks back at the packing separator -/

lemma hasSep_true_iff : ∀ l : List Char, hasSep l = true ↔ List.IsInfix ['\n', '\n'] l
  | [] => by
    simp only [hasSep, Bool.false_eq_true, false_iff]
    rintro ⟨s, t, h⟩
    have := congrArg List.length h
    simp at this
  | [c] => by
    simp only [hasSep, Bool.false_eq_true, false_iff]
    rintro ⟨s, t, h⟩
    have := congrArg List.length h
    simp at this
    omega
  | c :: d :: rest => by
    rw [hasSep, List.infix_cons_iff]
    rw [Bool.or_eq_true, Bool.and_eq_true, beq_iff_eq, beq_iff_eq,
      hasSep_true_iff (d :: rest), List.infix_cons_iff]
    constructor
    · rintro (⟨rfl, rfl⟩ | h)
      · exact Or.inl (List.cons_prefix_cons.mpr ⟨rfl,
          List.cons_prefix_cons.mpr ⟨rfl, List.nil_prefix⟩⟩)
      · exact Or.inr h
    · rintro (h | h)
      · rcases List.cons_prefix_cons.mp h with ⟨rfl, h2⟩
        rcases List.cons_prefix_cons.mp h2 with ⟨rfl, _⟩
        exact Or.inl ⟨rfl, rfl⟩
      · exact Or.inr h

lemma hasSep_take (l : List Char) (n : Nat) (h : hasSep l = false) :
    hasSep (l.take n) = false := by
  cases htake : hasSep (l.take n) with
  | false => rfl
  | true =>
    have hinf := ((hasSep_true_iff _).mp htake).trans (List.take_prefix n l).isInfix
    rw [(hasSep_true_iff l).mpr hinf] at h
    exact absurd h (by simp)

lemma hasSep_drop (l : List Char) (n : Nat) (h : hasSep l = false) :
    hasSep (l.drop n) = false := by
  cases hdrop : hasSep (l.drop n) with
  | false => rfl
  | true =>
    have hinf := ((hasSep_true_iff _).mp hdrop).trans (List.drop_suffix n l).isInfix
    rw [(hasSep_true_iff l).mpr hinf] at h
    exact absurd h (by simp)

lemma splitSepChars_noSep : ∀ u : List Char, hasSep u = false → splitSepChars u = [u]
  | [], _ => rfl
  | [_], _ => rfl
  | c :: d :: rest, h => by
    rw [hasSep, Bool.or_eq_false_iff] at h
    have hnot : ¬(c = '\n' ∧ d = '\n') := by
      rintro ⟨rfl, rfl⟩
      simp at h
    rw [splitSepChars, if_neg hnot, splitSepChars_noSep (d :: rest) h.2, consHead]

lemma splitSepChars_append_sep :
    ∀ u t : List Char, hasSep u = false → u.getLast? ≠ some '\n' →
      splitSepChars (u ++ '\n' :: '\n' :: t) = u :: splitSepChars t
  | [], t, _, _ => by
    rw [List.nil_append, splitSepChars, if_pos ⟨rfl, rfl⟩]
  | [c], t, _, hlast => by
    have hc : ¬(c = '\n' ∧ '\n' = '\n') := by
      rintro ⟨rfl, -⟩
      exact hlast rfl
    rw [List.cons_append, List.nil_append, splitSepChars, if_neg hc,
      splitSepChars, if_pos ⟨rfl, rfl⟩, consHead]
  | c :: d :: rest, t, hsep, hlast => by
    rw [hasSep, Bool.or_eq_false_iff] at hsep
    have hnot : ¬(c = '\n' ∧ d = '\n') := by
      rintro ⟨rfl, rfl⟩
      simp at hsep
    have hlast2 : (d :: rest).getLast? ≠ some '\n' := by
      rwa [List.getLast?_cons_cons] at hlast
    show splitSepChars (c :: d :: (rest ++ '\n' :: '\n' :: t)) = _
    rw [splitSepChars, if_neg hnot]
    have heq : d :: (rest ++ '\n' :: '\n' :: t) = (d :: rest) ++ '\n' :: '\n' :: t := rfl
    rw [heq, splitSepChars_append_sep (d :: rest) t hsep.2 hlast2, consHead]

lemma str_ext {s t : String} (h : s.data = t.data) : s = t := by
  cases s; cases t; simp_all

lemma sep_data : ("\n\n" : String).data = ['\n', '\n'] := rfl

lemma goodUnit_length_pos {u : String} (h : goodUnit u) : 0 < u.length := by
  rcases h with ⟨hne, -, -, -⟩
  rw [String.length_eq_data_length]
  cases hd : u.data with
  | nil => exact absurd hd hne
  | cons c cs => simp [hd]

lemma joinWith_snoc (p : String) :
    ∀ us : List String, joinWith "\n\n" (us ++ [p]) =
      if us.isEmpty then p else joinWith "\n\n" us ++ "\n\n" ++ p
  | [] => rfl
  | [s] => rfl
  | s :: s2 :: rest => by
    have ih := joinWith_snoc p (s2 :: rest)
    simp only [List.isEmpty_cons, Bool.false_eq_true, if_false] at ih ⊢
    show joinWith "\n\n" (s :: (s2 :: (rest ++ [p]))) = _
    rw [joinWith, show s2 :: (rest ++ [p]) = (s2 :: rest) ++ [p] from rfl, ih, joinWith]
    exact str_ext (by simp [String.data_append])

lemma joinWith_isEmpty_false :
    ∀ us : List String, us ≠ [] → (∀ u ∈ us, goodUnit u) →
      (joinWith "\n\n" us).isEmpty = false
  | [], hne, _ => absurd rfl hne
  | [u], _, hgood => by
    have hu := goodUnit_length_pos (hgood u (List.mem_singleton_self u))
    exact Bool.eq_false_iff.mpr (ne_empty_of_length_pos (by rw [joinWith]; omega))
  | u :: u2 :: rest, _, hgood => by
    have hu := goodUnit_length_pos (hgood u (by simp))
    refine Bool.eq_false_iff.mpr (ne_empty_of_length_pos ?_)
    rw [joinWith, String.length_append, String.length_append]
    omega

lemma splitOnSep_joinWith :
    ∀ us : List String, us ≠ [] → (∀ u ∈ us, goodUnit u) →
      splitOnSep (joinWith "\n\n" us) = us
  | [], hne, _ => absurd rfl hne
  | [u], _, hgood => by
    obtain ⟨-, hsep, -, -⟩ := hgood u (List.mem_singleton_self u)
    rw [joinWith, splitOnSep, splitSepChars_noSep u.data hsep, List.map_cons,
      List.map_nil, mk_data_eq]
  | u :: u2 :: rest, _, hgood => by
    obtain ⟨-, hsep, -, hlast⟩ := hgood u (by simp)
    have ih := splitOnSep_joinWith (u2 :: rest) (by simp)
      (fun v hv => hgood v (List.mem_cons_of_mem u hv))
    rw [joinWith, splitOnSep]
    have hdata : (u ++ "\n\n" ++ joinWith "\n\n" (u2 :: rest)).data =
        u.data ++ '\n' :: '\n' :: (joinWith "\n\n" (u2 :: rest)).data := by
      simp [String.data_append]
    rw [hdata, splitSepChars_append_sep u.data _ hsep hlast, List.map_cons, mk_data_eq]
    rw [splitOnSep] at ih
    rw [ih]

lemma sliceGo_noSep (limit : Nat) :
    ∀ fuel l, hasSep l = false → ∀ piece ∈ sliceGo limit fuel l, hasSep piece = false := by
  intro fuel
  induction fuel with
  | zero => intro l _ piece hp; cases l <;> simp [sliceGo] at hp
  | succ n ih =>
    intro l hl piece hp
    cases l with
    | nil => simp [sliceGo] at hp
    | cons x xs =>
      simp only [sliceGo, List.mem_cons] at hp
      rcases hp with rfl | hp
      · exact hasSep_take _ _ hl
      · exact ih _ (hasSep_drop _ _ hl) piece hp

lemma flatten_map_singleton {α β : Type} (l : List α) (f : α → β) :
    (l.map fun x => [f x]).flatten = l.map f := by
  induction l with
  | nil => rfl
  | cons a t ih => simp [ih]

lemma map_splitOnSep_strSlices (p : String) (limit : Nat) (h : hasSep p.data = false) :
    ((strSlices p limit).map splitOnSep).flatten = strSlices p limit := by
  rw [strSlices, List.map_map]
  have hcongr : (sliceGo limit p.data.length p.data).map (splitOnSep ∘ String.mk) =
      (sliceGo limit p.data.length p.data).map fun piece => [String.mk piece] := by
    apply List.map_congr_left
    intro piece hp
    have hps := sliceGo_noSep limit p.data.length p.data h piece hp
    show splitOnSep (String.mk piece) = [String.mk piece]
    rw [splitOnSep, show (String.mk piece).data = piece from rfl,
      splitSepChars_noSep piece hps, List.map_cons, List.map_nil]
  rw [hcongr, flatten_map_singleton]

lemma chunkGo_split_complete (limit : Nat) :
    ∀ (parts us : List String), (∀ u ∈ us, goodUnit u) → (∀ p ∈ parts, goodUnit p) →
      ((chunkGo limit (joinWith "\n\n" us) parts).map splitOnSep).flatten =
        us ++ parts.flatMap (sliceExpand limit) := by
  intro parts
  induction parts with
  | nil =>
    intro us hus _
    cases us with
    | nil => simp [chunkGo, joinWith, String.isEmpty_iff]
    | cons u us' =>
      have hbeF := joinWith_isEmpty_false (u :: us') (by simp) hus
      simp only [chunkGo, hbeF, Bool.false_eq_true, if_false, List.map_cons, List.map_nil,
        List.flatten_cons, List.flatten_nil, List.append_nil, List.flatMap_nil]
      exact splitOnSep_joinWith (u :: us') (by simp) hus
  | cons p rest ih =>
    intro us hus hparts
    have hgoodp := hparts p (List.mem_cons_self p rest)
    have hgoodrest : ∀ q ∈ rest, goodUnit q :=
      fun q hq => hparts q (List.mem_cons_of_mem p hq)
    have hplen := goodUnit_length_pos hgoodp
    cases us with
    | nil =>
      rw [joinWith]
      by_cases hov : limit < p.length
      · have ih0 := ih [] (by simp) hgoodrest
        rw [joinWith] at ih0
        simp only [chunkGo, show ("" : String).isEmpty = true from rfl, if_true,
          if_pos hov, List.nil_append, List.map_append, List.flatten_append, ih0,
          List.flatMap_cons, List.nil_append]
        rw [map_splitOnSep_strSlices p limit hgoodp.2.1, sliceExpand, if_pos hov]
      · have ih1 := ih [p] (by simpa using hgoodp) hgoodrest
        rw [joinWith] at ih1
        simp only [chunkGo, show ("" : String).isEmpty = true from rfl, if_true,
          if_neg hov, List.nil_append, ih1, List.flatMap_cons, List.nil_append,
          sliceExpand]
    | cons u us' =>
      have hbeF := joinWith_isEmpty_false (u :: us') (by simp) hus
      have hsplitbuf := splitOnSep_joinWith (u :: us') (by simp) hus
      have hsnoc : joinWith "\n\n" ((u :: us') ++ [p]) =
          joinWith "\n\n" (u :: us') ++ "\n\n" ++ p := by
        rw [joinWith_snoc p (u :: us')]
        simp
      by_cases hov : limit < (joinWith "\n\n" (u :: us')).length + "\n\n".length + p.length
      · by_cases hpov : limit < p.length
        · have ih0 := ih [] (by simp) hgoodrest
          rw [joinWith] at ih0
          simp only [chunkGo, hbeF, Bool.false_eq_true, if_false, String.length_append,
            if_pos hov, if_pos hpov, List.map_append, List.flatten_append, List.map_cons,
            List.map_nil, List.flatten_cons, List.flatten_nil, List.append_nil, ih0,
            List.flatMap_cons, List.nil_append, hsplitbuf]
          rw [map_splitOnSep_strSlices p limit hgoodp.2.1, sliceExpand, if_pos hpov]
        · have ih1 := ih [p] (by simpa using hgoodp) hgoodrest
          rw [joinWith] at ih1
          simp only [chunkGo, hbeF, Bool.false_eq_true, if_false, String.length_append,
            if_pos hov, if_neg hpov, List.map_append, List.flatten_append, List.map_cons,
            List.map_nil, List.flatten_cons, List.flatten_nil, List.append_nil, ih1,
            List.flatMap_cons, hsplitbuf, sliceExpand]
      · have hall : ∀ v ∈ (u :: us') ++ [p], goodUnit v := by
          intro v hv
          rcases List.mem_append.mp hv with hv1 | hv2
          · exact hus v hv1
          · rw [List.mem_singleton] at hv2
            subst hv2; exact hgoodp
        have ih2 := ih ((u :: us') ++ [p]) hall hgoodrest
        rw [hsnoc] at ih2
        have hpfit : ¬limit < p.length := by
          rw [length_sep] at hov
          omega
        simp only [chunkGo, hbeF, Bool.false_eq_true, if_false, String.length_append,
          if_neg hov, ih2, List.flatMap_cons, sliceExpand]
        rw [if_neg hpfit]
        simp [List.append_assoc]

/-! ## Claim C5: chunking completeness -/

/-- C5: for well-formed logical units (nonempty, trimmed, without blank
lines — the shape `splitPatchByFile` yields on real git patches), the
chunks produced by `chunkBySize`, concatenated in order and normalized for
the `"\n\n"` join separator, reproduce every unit exactly once in its
original position — an oversized unit appearing as its consecutive slices,
whose concatenation is exactly that unit. -/
theorem chunkBySize_completeness (parts : List String) (limit : Nat) (hl : 0 < limit)
    (hgood : ∀ p ∈ parts, goodUnit p) :
    ((chunkBySize parts limit).map splitOnSep).flatten =
        parts.flatMap (sliceExpand limit) ∧
      ∀ p ∈ parts, strConcat (sliceExpand limit p) = p := by
  constructor
  · have h := chunkGo_split_complete limit parts [] (by simp) hgood
    rw [joinWith] at h
    simpa [chunkBySize] using h
  · intro p hp
    rw [sliceExpand]
    by_cases hov : limit < p.length
    · rw [if_pos hov]
      exact strConcat_strSlices p limit hl
    · rw [if_neg hov]
      rw [strConcat, List.map_cons, List.map_nil, List.flatten_cons, List.flatten_nil,
        List.append_nil, mk_data_eq]

/-- Witness for C5: units `["ab", "c"]` with limit 1 — the oversized unit
is sliced, the small one kept — reassemble exactly. -/
theorem chunkBySize_completeness_witness :
    ((chunkBySize ["ab", "c"] 1).map splitOnSep).flatten =
        ["ab", "c"].flatMap (sliceExpand 1) ∧
      strConcat (sliceExpand 1 "ab") = "ab" :=
  ⟨(chunkBySize_completeness ["ab", "c"] 1 (by decide) (by decide)).1,
    (chunkBySize_completeness ["ab", "c"] 1 (by decide) (by decide)).2 "ab" (by decide)⟩
